import Mathlib

/-!
# Verification of the go-poly polymorphic JSON library

Shallow embedding of the core of `go-poly`: the default discriminator
resolver (`GenericTypeLocator.TypeName`), the flattening encoder
(`Flatten` / `indexedObjectForValue` with the stable sort used by
`Marshal`), and the polymorphic decoder (`UnmarshallCustom` with
`makeTargetFieldLookup`).

The Go code is reflection-heavy; the embedding models the reflective
observations the code makes of a value:

* `Elem` stands for one variant instance (a Go struct value).  Its
  `payload` field is an abstract identity for all non-index content, its
  `idx` field is the position-hint field read by `GetIndex` and written
  by `SetIndex`, `isZero` reflects `reflect.Value.IsZero` of the struct
  value, `getRecv`/`setRecv` record whether (and with which method
  receiver) the type implements `GetIndex`/`SetIndex`, and `tag` is the
  discriminator string the value's own JSON carries (what the probe
  decode reports for it).
* Go method-set semantics are captured by `Recv.inMethodSet`: a method
  with a pointer receiver is in the method set of `*T` but not of `T`,
  a value-receiver method is in both.
* A container is the target struct: its fields in declaration order,
  each field a `Field` descriptor (name, optional `poly` tag, whether
  the variant is held by pointer) together with its current
  `SlotContent` (a single value or a slice).
* The external JSON collaborator is abstracted at the array boundary:
  `RawInput` distinguishes empty input (`len(rawJson) == 0`), input that
  fails to parse as an array of resolver probes, and a parsed array of
  `WireElem`s, each carrying the probe's reported tag and the result of
  decoding the element's raw sub-document into the matched variant type
  (`none` = `json.Unmarshal` failure).
-/

namespace Poly

/-- Which receiver (if any) a Go type uses to implement an optional
capability method such as `GetIndex` or `SetIndex`. -/
inductive Recv where
  | disabled   -- the type does not implement the method at all
  | value      -- value receiver: in the method set of both `T` and `*T`
  | ptr        -- pointer receiver: in the method set of `*T` only
deriving DecidableEq, Repr

/-- Go method-set rule: whether the capability is visible on the value as
held (`isPtr = true` when the value is held/queried as a pointer). -/
def Recv.inMethodSet : Recv → Bool → Bool
  | .disabled, _ => false
  | .value, _ => true
  | .ptr, isPtr => isPtr

/-- One variant instance, as the reflective operations of the library
observe it. -/
structure Elem where
  payload : Nat     -- identity of all content other than the index field
  idx : Int         -- the position-hint field (`GetIndex`/`SetIndex`)
  isZero : Bool     -- whether the struct value is its type's zero value
  getRecv : Recv    -- how the type implements `GetIndex`
  setRecv : Recv    -- how the type implements `SetIndex`
  tag : String      -- discriminator carried by the value's own JSON
deriving DecidableEq, Repr

/-- An element compared modulo its position-hint field. -/
def sansIdx (e : Elem) : Elem := { e with idx := 0 }

/-- A declared field of the target container struct. -/
structure Field where
  name : String             -- the Go field name
  polyTag : Option String   -- explicit `poly:"..."` tag, if present
  byPtr : Bool              -- variant held as `*T` (or `[]*T`) rather than `T` (`[]T`)
deriving DecidableEq, Repr

/-- Tag resolution for a field: the `poly` tag if present, else the
field's declared name (`makeTargetFieldLookup`). -/
def Field.tag (f : Field) : String := f.polyTag.getD f.name

/-- The current content of one field: a single-value slot or a slice
slot.  A held value is an `Option Elem`: `none` is a nil pointer (for
`byPtr` slots) or the unset zero value. -/
inductive SlotContent where
  | one (v : Option Elem)
  | many (vs : List (Option Elem))
deriving DecidableEq, Repr

/-- A container: the declared fields in source order, each with its
current content. -/
abbrev Container := List (Field × SlotContent)

/-- `reflect.Value.IsZero` of a held value: a nil pointer or missing
value is zero; a non-nil pointer is never zero; a by-value struct is
zero exactly when the struct is its zero value. -/
def heldIsZero (byPtr : Bool) : Option Elem → Bool
  | none => true
  | some e => !byPtr && e.isZero

/-- Go's `math.MaxInt` on a 64-bit platform. -/
def maxInt : Int := 9223372036854775807

/-- The `indexedObject` wrapper: a flattened value together with the
sort key used by `Marshal`/`Flatten`. -/
structure IndexedObject where
  Index : Int
  Value : Elem
deriving DecidableEq, Repr

/-- `indexedObjectForValue`: wrap a value with its sort index.  `isPtr`
says whether the value is held (and hence capability-queried, via
`reflect.Value.CanConvert`) as a pointer.  If the value's method set
does not contain `GetIndex`, the index is `math.MaxInt` and the
"sortable" flag is false. -/
def indexedObjectForValue (isPtr : Bool) (v : Elem) : IndexedObject × Bool :=
  if v.getRecv.inMethodSet isPtr then (⟨v.idx, v⟩, true)
  else (⟨maxInt, v⟩, false)

/-- The body of `Flatten`'s field loop for one field: the stream of
`(indexedObject, itemSortable)` pairs the field contributes.

For a single-value field the zero check (`fieldValue.IsZero()`) runs
first; a non-zero single struct value is then wrapped in a fresh pointer
(`reflect.New`), so its capability query is in pointer form regardless
of `byPtr`.  Slice elements are not wrapped: each non-zero element is
queried exactly as held (`byPtr`). -/
def collectField (f : Field) (c : SlotContent) : List (IndexedObject × Bool) :=
  match c with
  | .one v =>
    if heldIsZero f.byPtr v then []
    else match v with
      | some e => [indexedObjectForValue true e]
      | none => []
  | .many vs =>
    vs.filterMap fun o =>
      match o with
      | none => none
      | some e =>
        if heldIsZero f.byPtr (some e) then none
        else some (indexedObjectForValue f.byPtr e)

/-- The full `(indexedObject, itemSortable)` stream of `Flatten`'s main
loop, fields in declaration order. -/
def collectAll (C : Container) : List (IndexedObject × Bool) :=
  C.flatMap fun fc => collectField fc.1 fc.2

/-- Stable insertion into a list sorted by `key` (ascending): the new
element goes after every element with a strictly smaller key and before
the first element whose key is not smaller. -/
def sIns (key : α → Int) (x : α) : List α → List α
  | [] => [x]
  | y :: ys => if key y < key x then y :: sIns key x ys else x :: y :: ys

/-- Stable sort by ascending `key`; models `sort.SliceStable` with the
comparison `Index i < Index j` (insertion sort is stable and sorted,
which determines `sort.SliceStable`'s output uniquely). -/
def sSort (key : α → Int) : List α → List α
  | [] => []
  | x :: xs => sIns key x (sSort key xs)

/-- `Flatten`: collect every included field value (zero values omitted,
slices expanded), then, if any element was sortable, stable-sort the
wrapped objects by ascending index, and return the unwrapped values. -/
def Flatten (C : Container) : List Elem :=
  let items := collectAll C
  let needToSort := items.any fun p => p.2
  let objs := items.map fun p => p.1
  let sorted := if needToSort then sSort (fun o => o.Index) objs else objs
  sorted.map fun o => o.Value

/-! ## Decoder -/

/-- Errors returned by `UnmarshallCustom`, by source:
`targetNotPointer` from `makeTargetFieldLookup`, `locatorNotAssignable`
from `unmarshallTypeMap`'s capability check, `parseError` from the
top-level `json.Unmarshal` of the probe slice (malformed array or a
probe element that cannot decode into the resolver type), and
`decodeError` from `json.Unmarshal` of a matched sub-document into its
variant type. -/
inductive UErr where
  | targetNotPointer
  | locatorNotAssignable
  | parseError
  | decodeError
deriving DecidableEq, Repr

/-- One element of the parsed top-level array: the tag the resolver
probe reports for it (`TypeName()`), and the result of decoding its raw
sub-document into the matched slot's variant type (`none` models a
`json.Unmarshal` failure there). -/
structure WireElem where
  tag : String
  payload : Option Elem
deriving DecidableEq, Repr

/-- The raw input as the decoder distinguishes it: empty bytes
(`len(rawJson) == 0`), bytes that fail to parse as an array of resolver
probes, or a successfully parsed array.  (The second parse into
`[]json.RawMessage` succeeds exactly when the probe parse does, as both
parse the same bytes as an array.) -/
inductive RawInput where
  | empty
  | malformed
  | arr (es : List WireElem)
deriving DecidableEq, Repr

/-- Registry insertion with overwrite: later registrations of the same
tag win, as in a Go map rebuilt per field. -/
def insertTag (m : String → Option Nat) (t : String) (i : Nat) : String → Option Nat :=
  fun s => if s = t then some i else m s

/-- Fold of `makeTargetFieldLookup`'s field loop from field index `i`. -/
def buildLookup : Nat → List Field → (String → Option Nat) → (String → Option Nat)
  | _, [], m => m
  | i, f :: rest, m => buildLookup (i + 1) rest (insertTag m f.tag i)

/-- `makeTargetFieldLookup`: map each field's resolved tag to the
field's index, iterating fields in order with map overwrite. -/
def makeTargetFieldLookup (fields : List Field) : String → Option Nat :=
  buildLookup 0 fields (fun _ => none)

/-- The `SetIndex` step of the decode loop: the fresh instance is held
behind the `reflect.New` pointer, so the capability is queried in
pointer form; if present, the element's position-hint field is set to
its zero-based position in the original array. -/
def procElem (i : Nat) (v : Elem) : Elem :=
  if v.setRecv.inMethodSet true then { v with idx := (i : Int) } else v

/-- Store a decoded instance into field `j`: a slice slot gets the
instance appended, a single-value slot is overwritten. -/
def assignContent : SlotContent → Elem → SlotContent
  | .many vs, v => .many (vs ++ [some v])
  | .one _, v => .one (some v)

/-- Update the `j`-th field's content of the container. -/
def setAt : Container → Nat → Elem → Container
  | [], _, _ => []
  | fc :: rest, 0, v => (fc.1, assignContent fc.2 v) :: rest
  | fc :: rest, n + 1, v => fc :: setAt rest n v

/-- The decode loop of `UnmarshallCustom` from position `i`: skip
elements whose probe tag is empty or matches no registry entry; for a
match, a failed sub-document decode aborts immediately with
`decodeError`, otherwise the instance (with `SetIndex` applied when
available) is assigned into the matched field. -/
def decodeLoop (r : String → Option Nat) : Nat → List WireElem → Container →
    Except UErr Container
  | _, [], c => .ok c
  | i, e :: rest, c =>
    if e.tag = "" then decodeLoop r (i + 1) rest c
    else
      match r e.tag with
      | none => decodeLoop r (i + 1) rest c
      | some j =>
        match e.payload with
        | none => .error .decodeError
        | some v => decodeLoop r (i + 1) rest (setAt c j (procElem i v))

/-- `UnmarshallCustom`.  `targetIsPtr` models
`reflect.TypeOf(target).Kind() == reflect.Pointer` and `locatorOk`
models `reflect.PointerTo(typeLocator).AssignableTo(typeLocatorType)`;
both are properties of the call's target and resolver arguments.  The
empty-input check precedes everything; then the field lookup (pointer
check), then the probe parse (capability check before the parse), then
the element loop. -/
def UnmarshallCustom (targetIsPtr locatorOk : Bool) (raw : RawInput)
    (c : Container) : Except UErr Container :=
  match raw with
  | .empty => .ok c
  | .malformed =>
    if !targetIsPtr then .error .targetNotPointer
    else if !locatorOk then .error .locatorNotAssignable
    else .error .parseError
  | .arr es =>
    if !targetIsPtr then .error .targetNotPointer
    else if !locatorOk then .error .locatorNotAssignable
    else decodeLoop (makeTargetFieldLookup (c.map Prod.fst)) 0 es c

/-! ## Derived descriptions of the decode loop -/

/-- The sequence of instances the decode loop assigns into field `j`
when processing the elements from array position `i` on: each matched,
successfully decoded element in encounter order, with `SetIndex` applied
at the element's zero-based position in the original array (skipped
elements still advance the position). -/
def slotMatchesFrom (r : String → Option Nat) (j : Nat) : Nat → List WireElem → List Elem
  | _, [] => []
  | i, e :: rest =>
    if e.tag ≠ "" ∧ r e.tag = some j then
      match e.payload with
      | some v => procElem i v :: slotMatchesFrom r j (i + 1) rest
      | none => slotMatchesFrom r j (i + 1) rest
    else slotMatchesFrom r j (i + 1) rest

/-- The instances assigned into field `j` over a whole decode. -/
def slotMatches (r : String → Option Nat) (j : Nat) (es : List WireElem) : List Elem :=
  slotMatchesFrom r j 0 es

/-! ## Round-trip composition -/

/-- Re-parsing one marshalled value under the round-trip provisos: the
variant's own JSON carries its discriminator (so the probe reports the
value's `tag`), and decoding the value's serialization back into its
variant type recovers the value. -/
def wireOf (e : Elem) : WireElem := ⟨e.tag, some e⟩

/-- `Marshal` followed by the decoder's two parses of the produced
array: the flattened, sorted values, each presented as a wire element
under the round-trip provisos. -/
def MarshalWire (C : Container) : List WireElem :=
  (Flatten C).map wireOf

/-- A field's content in a fresh (zero-valued) container of the same
type. -/
def emptyContent : SlotContent → SlotContent
  | .one _ => .one none
  | .many _ => .many []

/-- A fresh, empty container of the same type as `C`. -/
def freshOf (C : Container) : Container :=
  C.map fun fc => (fc.1, emptyContent fc.2)

/-- The values held by a slot, in order. -/
def heldList : SlotContent → List (Option Elem)
  | .one v => [v]
  | .many vs => vs

/-- "Holds no zero-valued elements": every held slice element is
non-zero, and a single-value slot is either unset or non-zero. -/
def NoZeros (byPtr : Bool) : SlotContent → Prop
  | .one none => True
  | .one (some e) => heldIsZero byPtr (some e) = false
  | .many vs => ∀ o ∈ vs, heldIsZero byPtr o = false

/-! ## Spec-side description of inclusion (for the zero-omission claim) -/

/-- Spec-side reading of the inclusion rule: a single-value slot
contributes its value unless it is zero; a collection slot contributes
exactly its non-zero elements, in the slot's internal order. -/
def specIncluded (C : Container) : List Elem :=
  C.flatMap fun fc =>
    match fc.2 with
    | .one v => if heldIsZero fc.1.byPtr v then [] else v.toList
    | .many vs => vs.filterMap fun o =>
        if heldIsZero fc.1.byPtr o then none else o

/-! ## Default resolver -/

/-- `GenericTypeLocator`: the default resolver's four conventional
discriminator fields.  (The Go field `Type` is named `TypeF` here, as
`Type` is reserved in Lean; its JSON key is `type`.) -/
structure GenericTypeLocator where
  TypeF : String       -- JSON key `type`
  TypeAt : String      -- JSON key `@type`
  TypeCaps : String    -- JSON key `Type`
  TypeAtCaps : String  -- JSON key `@Type`
deriving DecidableEq, Repr

/-- `GenericTypeLocator.TypeName`: the first non-empty field in priority
order `type`, `@type`, `Type`, `@Type`; the empty string if all are
empty (absent JSON fields decode to the empty string). -/
def TypeName (t : GenericTypeLocator) : String :=
  if t.TypeF.length > 0 then t.TypeF
  else if t.TypeAt.length > 0 then t.TypeAt
  else if t.TypeCaps.length > 0 then t.TypeCaps
  else if t.TypeAtCaps.length > 0 then t.TypeAtCaps
  else ""

/-! ## Lemmas about the stable sort -/

theorem sIns_perm (key : α → Int) (x : α) (l : List α) :
    (sIns key x l).Perm (x :: l) := by
  induction l with
  | nil => simp [sIns]
  | cons y ys ih =>
    simp only [sIns]
    split
    · exact ((ih.cons y).trans (List.Perm.swap x y ys))
    · exact List.Perm.refl _

theorem sSort_perm (key : α → Int) (l : List α) : (sSort key l).Perm l := by
  induction l with
  | nil => simp [sSort]
  | cons x xs ih =>
    exact (sIns_perm key x (sSort key xs)).trans (ih.cons x)

theorem sIns_sorted (key : α → Int) (x : α) (l : List α)
    (h : l.Pairwise fun a b => key a ≤ key b) :
    (sIns key x l).Pairwise fun a b => key a ≤ key b := by
  induction l with
  | nil => simp [sIns]
  | cons y ys ih =>
    simp only [sIns]
    rcases List.pairwise_cons.mp h with ⟨hy, hys⟩
    split
    · rename_i hlt
      refine List.pairwise_cons.mpr ⟨?_, ih hys⟩
      intro a ha
      rcases List.mem_cons.mp ((sIns_perm key x ys).mem_iff.mp ha) with h' | h'
      · subst h'; exact le_of_lt hlt
      · exact hy a h'
    · rename_i hnlt
      refine List.pairwise_cons.mpr ⟨?_, h⟩
      intro a ha
      rcases List.mem_cons.mp ha with h' | h'
      · subst h'; exact le_of_not_lt hnlt
      · exact le_trans (le_of_not_lt hnlt) (hy a h')

theorem sSort_sorted (key : α → Int) (l : List α) :
    (sSort key l).Pairwise fun a b => key a ≤ key b := by
  induction l with
  | nil => simp [sSort]
  | cons x xs ih => exact sIns_sorted key x _ ih

theorem sIns_filter_key (key : α → Int) (x : α) (l : List α) (k : Int) :
    (sIns key x l).filter (fun a => decide (key a = k)) =
      if key x = k then x :: l.filter (fun a => decide (key a = k))
      else l.filter (fun a => decide (key a = k)) := by
  induction l with
  | nil => by_cases hx : key x = k <;> simp [sIns, List.filter, hx]
  | cons y ys ih =>
    simp only [sIns]
    split
    · rename_i hlt
      by_cases hy : key y = k
      · have hx : ¬ key x = k := by
          intro hx
          rw [hx, hy] at hlt
          exact lt_irrefl k hlt
        simp [List.filter, hy, hx, ih]
      · simp [List.filter, hy, ih]
    · simp [List.filter]
      by_cases hx : key x = k <;> simp [hx]

theorem sSort_filter_key (key : α → Int) (l : List α) (k : Int) :
    (sSort key l).filter (fun a => decide (key a = k)) =
      l.filter (fun a => decide (key a = k)) := by
  induction l with
  | nil => simp [sSort]
  | cons x xs ih =>
    simp only [sSort, sIns_filter_key, List.filter]
    by_cases hx : key x = k <;> simp [hx, ih]

theorem sIns_of_const (key : α → Int) (x : α) (l : List α)
    (h : ∀ a ∈ l, key a = key x) : sIns key x l = x :: l := by
  cases l with
  | nil => simp [sIns]
  | cons y ys =>
    have : key y = key x := h y (List.mem_cons_self y ys)
    simp [sIns, this]

theorem sSort_of_const (key : α → Int) (l : List α) (k : Int)
    (h : ∀ a ∈ l, key a = k) : sSort key l = l := by
  induction l with
  | nil => simp [sSort]
  | cons x xs ih =>
    have hxs : ∀ a ∈ xs, key a = k := fun a ha => h a (List.mem_cons_of_mem x ha)
    rw [sSort, ih hxs, sIns_of_const]
    intro a ha
    rw [hxs a ha, h x (List.mem_cons_self x xs)]

theorem sIns_map (key : β → Int) (f : α → β) (x : α) (l : List α) :
    sIns key (f x) (l.map f) = (sIns (fun a => key (f a)) x l).map f := by
  induction l with
  | nil => simp [sIns]
  | cons y ys ih =>
    simp only [List.map, sIns]
    split <;> simp [ih]

theorem sSort_map (key : β → Int) (f : α → β) (l : List α) :
    sSort key (l.map f) = (sSort (fun a => key (f a)) l).map f := by
  induction l with
  | nil => simp [sSort]
  | cons x xs ih => simp [sSort, ih, sIns_map]

/-! ## Lemmas about the decode loop -/

theorem setAt_map_fst (c : Container) (j : Nat) (v : Elem) :
    (setAt c j v).map Prod.fst = c.map Prod.fst := by
  induction c generalizing j with
  | nil => simp [setAt]
  | cons fc rest ih =>
    cases j with
    | zero => simp [setAt]
    | succ n => simp [setAt, ih]

theorem setAt_get?_eq (c : Container) (j : Nat) (v : Elem) (fc : Field × SlotContent)
    (h : c.get? j = some fc) :
    (setAt c j v).get? j = some (fc.1, assignContent fc.2 v) := by
  induction c generalizing j with
  | nil => simp at h
  | cons fc₀ rest ih =>
    cases j with
    | zero =>
      simp only [List.get?] at h
      cases h
      simp [setAt]
    | succ n =>
      simp only [List.get?] at h
      simpa [setAt] using ih n h

theorem setAt_get?_ne (c : Container) (i j : Nat) (v : Elem) (h : i ≠ j) :
    (setAt c j v).get? i = c.get? i := by
  induction c generalizing i j with
  | nil => simp [setAt]
  | cons fc rest ih =>
    cases j with
    | zero =>
      cases i with
      | zero => exact absurd rfl h
      | succ m => simp [setAt]
    | succ n =>
      cases i with
      | zero => simp [setAt]
      | succ m =>
        simp only [setAt, List.get?]
        exact ih m n (fun he => h (by rw [he]))

theorem optLast (a : α) (t : List α) (v₀ : Option α) :
    (((a :: t).getLast?).map some).getD v₀ = (t.getLast?.map some).getD (some a) := by
  induction t generalizing a v₀ with
  | nil => simp
  | cons b bs ih => rw [List.getLast?_cons_cons, ih b v₀, ih b (some a)]

/-- Characterization of a successful decode loop run: a slice slot ends
with the matched instances appended in encounter order; a single-value
slot ends holding the last matched instance (or its initial value when
no element matched). -/
theorem decodeLoop_ok_char (r : String → Option Nat) (es : List WireElem) :
    ∀ (n : Nat) (c c' : Container), decodeLoop r n es c = .ok c' →
    ∀ j, (∀ f vs, c.get? j = some (f, .many vs) →
            c'.get? j = some (f, .many (vs ++ (slotMatchesFrom r j n es).map some)))
       ∧ (∀ f v₀, c.get? j = some (f, .one v₀) →
            c'.get? j = some (f, .one (((slotMatchesFrom r j n es).getLast?.map some).getD v₀))) := by
  induction es with
  | nil =>
    intro n c c' h j
    simp only [decodeLoop] at h
    cases h
    constructor
    · intro f vs hget; simpa [slotMatchesFrom] using hget
    · intro f v₀ hget; simpa [slotMatchesFrom] using hget
  | cons e rest ih =>
    intro n c c' h j
    simp only [decodeLoop] at h
    by_cases htag : e.tag = ""
    · rw [if_pos htag] at h
      have := ih (n + 1) c c' h j
      constructor
      · intro f vs hget
        have := this.1 f vs hget
        simpa [slotMatchesFrom, htag] using this
      · intro f v₀ hget
        have := this.2 f v₀ hget
        simpa [slotMatchesFrom, htag] using this
    · rw [if_neg htag] at h
      cases hr : r e.tag with
      | none =>
        rw [hr] at h
        have := ih (n + 1) c c' h j
        have hcond : ¬ (e.tag ≠ "" ∧ r e.tag = some j) := by
          rintro ⟨-, hj⟩; rw [hr] at hj; cases hj
        constructor
        · intro f vs hget
          have := this.1 f vs hget
          simpa [slotMatchesFrom, hcond] using this
        · intro f v₀ hget
          have := this.2 f v₀ hget
          simpa [slotMatchesFrom, hcond] using this
      | some j' =>
        rw [hr] at h
        cases hp : e.payload with
        | none => rw [hp] at h; cases h
        | some v =>
          rw [hp] at h
          have hrec := ih (n + 1) (setAt c j' (procElem n v)) c' h j
          by_cases hj : j = j'
          · subst hj
            have hcond : e.tag ≠ "" ∧ r e.tag = some j := ⟨htag, hr⟩
            constructor
            · intro f vs hget
              have hset : (setAt c j (procElem n v)).get? j =
                  some (f, .many (vs ++ [some (procElem n v)])) := by
                simpa [assignContent] using setAt_get?_eq c j (procElem n v) _ hget
              have := hrec.1 f (vs ++ [some (procElem n v)]) hset
              rw [this]
              simp [slotMatchesFrom, hcond, hp]
            · intro f v₀ hget
              have hset : (setAt c j (procElem n v)).get? j =
                  some (f, .one (some (procElem n v))) := by
                simpa [assignContent] using setAt_get?_eq c j (procElem n v) _ hget
              have := hrec.2 f (some (procElem n v)) hset
              rw [this]
              simp only [slotMatchesFrom, if_pos hcond, hp]
              rw [optLast]
          · have hne : ¬ (e.tag ≠ "" ∧ r e.tag = some j) := by
              rintro ⟨-, hj'⟩
              rw [hr] at hj'
              exact hj (by cases hj'; rfl)
            constructor
            · intro f vs hget
              have hset : (setAt c j' (procElem n v)).get? j = some (f, .many vs) := by
                rw [setAt_get?_ne c j j' _ hj]; exact hget
              have := hrec.1 f vs hset
              simpa [slotMatchesFrom, hne] using this
            · intro f v₀ hget
              have hset : (setAt c j' (procElem n v)).get? j = some (f, .one v₀) := by
                rw [setAt_get?_ne c j j' _ hj]; exact hget
              have := hrec.2 f v₀ hset
              simpa [slotMatchesFrom, hne] using this

/-- The decode loop succeeds whenever every element's sub-document
decode succeeds (in particular on re-parsed marshal output). -/
theorem decodeLoop_ok_of_payloads (r : String → Option Nat) (es : List WireElem) :
    ∀ (n : Nat) (c : Container), (∀ e ∈ es, e.payload ≠ none) →
    ∃ c', decodeLoop r n es c = .ok c' := by
  induction es with
  | nil => intro n c _; exact ⟨c, rfl⟩
  | cons e rest ih =>
    intro n c h
    have hrest : ∀ e' ∈ rest, e'.payload ≠ none :=
      fun e' he' => h e' (List.mem_cons_of_mem e he')
    simp only [decodeLoop]
    by_cases htag : e.tag = ""
    · rw [if_pos htag]; exact ih (n + 1) c hrest
    · rw [if_neg htag]
      cases hr : r e.tag with
      | none => exact ih (n + 1) c hrest
      | some j =>
        cases hp : e.payload with
        | none => exact absurd hp (h e (List.mem_cons_self e rest))
        | some v => exact ih (n + 1) _ hrest

/-- The decode loop fails exactly when some element's probe tag is
non-empty, matches a registry entry, and the element's sub-document
fails to decode; the failure is always `decodeError`. -/
theorem decodeLoop_error_iff (r : String → Option Nat) (es : List WireElem) :
    ∀ (n : Nat) (c : Container),
    (∃ err, decodeLoop r n es c = .error err) ↔
      ∃ e ∈ es, e.tag ≠ "" ∧ (r e.tag).isSome ∧ e.payload = none := by
  induction es with
  | nil =>
    intro n c
    simp [decodeLoop]
  | cons e rest ih =>
    intro n c
    simp only [decodeLoop]
    by_cases htag : e.tag = ""
    · rw [if_pos htag]
      rw [ih (n + 1) c]
      constructor
      · rintro ⟨e', he', h⟩; exact ⟨e', List.mem_cons_of_mem e he', h⟩
      · rintro ⟨e', he', h⟩
        rcases List.mem_cons.mp he' with h' | h'
        · subst h'; exact absurd htag h.1
        · exact ⟨e', h', h⟩
    · rw [if_neg htag]
      cases hr : r e.tag with
      | none =>
        rw [ih (n + 1) c]
        constructor
        · rintro ⟨e', he', h⟩; exact ⟨e', List.mem_cons_of_mem e he', h⟩
        · rintro ⟨e', he', h⟩
          rcases List.mem_cons.mp he' with h' | h'
          · subst h'
            rw [hr] at h
            simp at h
          · exact ⟨e', h', h⟩
      | some j =>
        cases hp : e.payload with
        | none =>
          constructor
          · intro _; exact ⟨e, List.mem_cons_self e rest, htag, by rw [hr]; rfl, hp⟩
          · intro _; exact ⟨.decodeError, rfl⟩
        | some v =>
          rw [ih (n + 1) _]
          constructor
          · rintro ⟨e', he', h⟩; exact ⟨e', List.mem_cons_of_mem e he', h⟩
          · rintro ⟨e', he', h⟩
            rcases List.mem_cons.mp he' with h' | h'
            · subst h'
              rw [hp] at h
              simp at h
            · exact ⟨e', h', h⟩

/-- A matched, settable element at original position `i` is assigned
into its slot with its position-hint field set to `i`. -/
theorem slotMatchesFrom_mem (r : String → Option Nat) (j : Nat) (es : List WireElem) :
    ∀ (n i : Nat) (e : WireElem) (v : Elem), es.get? i = some e →
    e.tag ≠ "" → r e.tag = some j → e.payload = some v →
    procElem (n + i) v ∈ slotMatchesFrom r j n es := by
  induction es with
  | nil => intro n i e v h; simp at h
  | cons e₀ rest ih =>
    intro n i e v h htag hr hp
    cases i with
    | zero =>
      simp only [List.get?] at h
      cases h
      simp [slotMatchesFrom, htag, hr, hp]
    | succ m =>
      simp only [List.get?] at h
      have := ih (n + 1) m e v h htag hr hp
      have harith : n + 1 + m = n + (m + 1) := by omega
      rw [harith] at this
      by_cases hcond : e₀.tag ≠ "" ∧ r e₀.tag = some j
      · cases hp₀ : e₀.payload with
        | none => simp [slotMatchesFrom, hcond, hp₀, this]
        | some v₀ => simp [slotMatchesFrom, hcond, hp₀]; right; exact this
      · simp [slotMatchesFrom, hcond, this]

/-! ## Lemmas about the field registry -/

theorem buildLookup_of_not_mem (fs : List Field) (t : String) :
    ∀ (i : Nat) (m : String → Option Nat), (∀ f ∈ fs, f.tag ≠ t) →
    buildLookup i fs m t = m t := by
  induction fs with
  | nil => intro i m _; rfl
  | cons f rest ih =>
    intro i m h
    have hf : f.tag ≠ t := h f (List.mem_cons_self f rest)
    rw [buildLookup, ih (i + 1) _ (fun f' hf' => h f' (List.mem_cons_of_mem f hf'))]
    simp only [insertTag]
    rw [if_neg (fun he => hf he.symm)]

theorem buildLookup_of_nodup (fs : List Field) :
    ∀ (j i : Nat) (m : String → Option Nat) (f : Field), fs.get? j = some f →
    (fs.map Field.tag).Nodup → buildLookup i fs m f.tag = some (i + j) := by
  induction fs with
  | nil => intro j i m f h; simp at h
  | cons f₀ rest ih =>
    intro j i m f h hnd
    rw [List.map_cons] at hnd
    rcases List.nodup_cons.mp hnd with ⟨hnotin, hndrest⟩
    cases j with
    | zero =>
      simp only [List.get?] at h
      cases h
      rw [buildLookup, buildLookup_of_not_mem]
      · simp [insertTag]
      · intro f' hf' he
        exact hnotin (he ▸ List.mem_map_of_mem Field.tag hf')
    | succ m' =>
      simp only [List.get?] at h
      rw [buildLookup]
      have := ih m' (i + 1) (insertTag m f₀.tag i) f h hndrest
      rw [this]
      congr 1
      omega

theorem makeTargetFieldLookup_of_nodup (fs : List Field) (j : Nat) (f : Field)
    (h : fs.get? j = some f) (hnd : (fs.map Field.tag).Nodup) :
    makeTargetFieldLookup fs f.tag = some j := by
  simpa using buildLookup_of_nodup fs j 0 (fun _ => none) f h hnd

/-- A string has positive length exactly when it is not the empty
string. -/
theorem length_pos_iff_ne_empty (s : String) : s.length > 0 ↔ s ≠ "" := by
  constructor
  · intro h he
    subst he
    simp at h
  · intro h
    cases s with
    | mk data =>
      cases data with
      | nil => exact absurd rfl h
      | cons c cs => simp [String.length]

/-- C7: for every probe record decoded into the default resolver, the
reported tag is the first non-empty field among `type`, `@type`,
`Type`, `@Type`, in exactly that priority order, and the empty string
when all four are empty or absent. -/
theorem typeName_first_nonEmpty (t : GenericTypeLocator) :
    TypeName t =
      (([t.TypeF, t.TypeAt, t.TypeCaps, t.TypeAtCaps].find? fun s => s ≠ "").getD "") := by
  have e1 := length_pos_iff_ne_empty t.TypeF
  have e2 := length_pos_iff_ne_empty t.TypeAt
  have e3 := length_pos_iff_ne_empty t.TypeCaps
  have e4 := length_pos_iff_ne_empty t.TypeAtCaps
  by_cases h1 : t.TypeF = "" <;> by_cases h2 : t.TypeAt = "" <;>
    by_cases h3 : t.TypeCaps = "" <;> by_cases h4 : t.TypeAtCaps = "" <;>
    simp [TypeName, List.find?, h1, h2, h3, h4, e1, e2, e3, e4]


/-- C8: decoding empty or absent input and decoding the empty array
both succeed with no error and leave the target container unmodified. -/
theorem unmarshall_empty_and_emptyArray_noop (tp lok : Bool) (c : Container) :
    UnmarshallCustom tp lok .empty c = .ok c ∧
    UnmarshallCustom true true (.arr []) c = .ok c :=
  ⟨rfl, rfl⟩

/-- C10: the empty-input check runs before any validation, so decoding
nil or zero-length input succeeds even when the target is not a pointer
or the resolver type lacks the tag capability, while the empty array
`[]` (non-empty input) does report those configuration errors. -/
theorem unmarshall_empty_skips_validation (c : Container) :
    UnmarshallCustom false true .empty c = .ok c ∧
    UnmarshallCustom true false .empty c = .ok c ∧
    UnmarshallCustom false false .empty c = .ok c ∧
    UnmarshallCustom false true (.arr []) c = .error .targetNotPointer ∧
    UnmarshallCustom true false (.arr []) c = .error .locatorNotAssignable ∧
    UnmarshallCustom false true .malformed c = .error .targetNotPointer ∧
    UnmarshallCustom true false .malformed c = .error .locatorNotAssignable :=
  ⟨rfl, rfl, rfl, rfl, rfl, rfl, rfl⟩

/-- C9: the decoder returns an error exactly when the input is
non-empty and either the target is not a pointer, the resolver lacks
the tag capability, the top-level parse (including the probe decode of
each element) fails, or some element whose non-empty tag matches a
registry entry fails to decode into its variant type.  Elements with an
empty tag or an unmatched tag never produce an error. -/
theorem unmarshall_error_characterization (tp lok : Bool) (raw : RawInput) (c : Container) :
    (∃ err, UnmarshallCustom tp lok raw c = .error err) ↔
      raw ≠ .empty ∧
        (tp = false ∨ lok = false ∨ raw = .malformed ∨
          ∃ es, raw = .arr es ∧ ∃ e ∈ es, e.tag ≠ "" ∧
            (makeTargetFieldLookup (c.map Prod.fst) e.tag).isSome ∧ e.payload = none) := by
  cases raw with
  | empty =>
    simp [UnmarshallCustom]
  | malformed =>
    cases tp with
    | false => simp [UnmarshallCustom]
    | true =>
      cases lok with
      | false => simp [UnmarshallCustom]
      | true => simp [UnmarshallCustom]
  | arr es =>
    cases tp with
    | false => simp [UnmarshallCustom]
    | true =>
      cases lok with
      | false => simp [UnmarshallCustom]
      | true =>
        simp only [UnmarshallCustom, Bool.not_true, Bool.false_eq_true, if_false]
        rw [decodeLoop_error_iff]
        simp

/-! ## Flatten structure lemmas -/

theorem indexedObjectForValue_value (b : Bool) (e : Elem) :
    (indexedObjectForValue b e).1.Value = e := by
  unfold indexedObjectForValue
  split <;> rfl

theorem collectField_many_values (f : Field) (vs : List (Option Elem)) :
    (collectField f (.many vs)).map (fun p => p.1.Value) =
      vs.filterMap (fun o => if heldIsZero f.byPtr o then none else o) := by
  induction vs with
  | nil => rfl
  | cons o os iho =>
    cases o with
    | none => simpa [collectField, List.filterMap_cons, heldIsZero] using iho
    | some e =>
      by_cases hz : heldIsZero f.byPtr (some e) = true
      · simpa [collectField, List.filterMap_cons, hz] using iho
      · simp only [Bool.not_eq_true] at hz
        simp only [collectField, List.filterMap_cons, hz] at iho ⊢
        simp [indexedObjectForValue_value, iho]

theorem collectField_one_values (f : Field) (v : Option Elem) :
    (collectField f (.one v)).map (fun p => p.1.Value) =
      if heldIsZero f.byPtr v then [] else v.toList := by
  cases v with
  | none => simp [collectField, heldIsZero]
  | some e =>
    by_cases hz : heldIsZero f.byPtr (some e) = true
    · simp [collectField, hz]
    · simp only [Bool.not_eq_true] at hz
      simp [collectField, hz, indexedObjectForValue_value]

/-- The unwrapped value stream of `Flatten`'s collection loop is
exactly the spec-side inclusion list. -/
theorem collectAll_values_eq_specIncluded (C : Container) :
    (collectAll C).map (fun p => p.1.Value) = specIncluded C := by
  unfold collectAll specIncluded
  induction C with
  | nil => rfl
  | cons fc rest ih =>
    simp only [List.flatMap_cons, List.map_append, ih]
    congr 1
    cases hc : fc.2 with
    | one v => simpa using collectField_one_values fc.1 v
    | many vs => simpa using collectField_many_values fc.1 vs

/-- `Flatten`'s output is a permutation of the collected value
stream. -/
theorem Flatten_perm_collect (C : Container) :
    (Flatten C).Perm ((collectAll C).map fun p => p.1.Value) := by
  show (List.map (fun o => o.Value)
      (if ((collectAll C).any fun p => p.2) = true
       then sSort (fun o => o.Index) ((collectAll C).map fun p => p.1)
       else (collectAll C).map fun p => p.1)).Perm _
  by_cases hs : (collectAll C).any (fun p => p.2) = true
  · rw [if_pos hs]
    have hperm := sSort_perm (fun o : IndexedObject => o.Index)
      ((collectAll C).map fun p => p.1)
    have := hperm.map (fun o : IndexedObject => o.Value)
    simpa [List.map_map, Function.comp] using this
  · rw [if_neg hs, List.map_map]
    exact List.Perm.refl _

/-- C6: `Flatten` omits zero values: a zero-valued single slot
contributes nothing, and a collection slot contributes exactly its
non-zero elements in the slot's internal order; the output is exactly
(a sorted permutation of) that inclusion list. -/
theorem flatten_omits_zero_values (C : Container) :
    ((collectAll C).map (fun p => p.1.Value) = specIncluded C) ∧
    (Flatten C).Perm (specIncluded C) := by
  refine ⟨collectAll_values_eq_specIncluded C, ?_⟩
  rw [← collectAll_values_eq_specIncluded C]
  exact Flatten_perm_collect C

/-- C4: assignment semantics of a successful decode: a slice slot ends
with every matched instance appended in encounter order after its
initial content; a single-value slot is overwritten on every match, so
it ends holding the last matched instance, or its initial value when no
element matched. -/
theorem unmarshall_assign_append_overwrite (c c' : Container) (es : List WireElem) (j : Nat)
    (h : UnmarshallCustom true true (.arr es) c = .ok c') :
    (∀ f vs, c.get? j = some (f, .many vs) →
      c'.get? j = some (f, .many
        (vs ++ (slotMatches (makeTargetFieldLookup (c.map Prod.fst)) j es).map some))) ∧
    (∀ f v₀, c.get? j = some (f, .one v₀) →
      c'.get? j = some (f, .one
        (((slotMatches (makeTargetFieldLookup (c.map Prod.fst)) j es).getLast?.map some).getD v₀))) := by
  simp only [UnmarshallCustom, Bool.not_true, Bool.false_eq_true, if_false] at h
  exact decodeLoop_ok_char _ es 0 c c' h j

/-- C5: an element at original zero-based position `i` whose decoded
instance implements `SetIndex` is assigned into its slot with its
position-hint field set to `i`; skipped elements before it still count
in the position, so skips never shift later indices. -/
theorem unmarshall_setIndex_original_position (c c' : Container) (es : List WireElem)
    (i j : Nat) (e : WireElem) (v : Elem)
    (hok : UnmarshallCustom true true (.arr es) c = .ok c')
    (hi : es.get? i = some e) (htag : e.tag ≠ "")
    (hr : makeTargetFieldLookup (c.map Prod.fst) e.tag = some j)
    (hp : e.payload = some v) (hset : v.setRecv.inMethodSet true = true) :
    { v with idx := (i : Int) } ∈ slotMatches (makeTargetFieldLookup (c.map Prod.fst)) j es ∧
    (∀ f vs, c.get? j = some (f, .many vs) →
      ∃ vs', c'.get? j = some (f, .many vs') ∧ some { v with idx := (i : Int) } ∈ vs') := by
  have hmem : procElem i v ∈ slotMatches (makeTargetFieldLookup (c.map Prod.fst)) j es := by
    have := slotMatchesFrom_mem (makeTargetFieldLookup (c.map Prod.fst)) j es 0 i e v
      hi htag hr hp
    simpa [slotMatches] using this
  have hproc : procElem i v = { v with idx := (i : Int) } := by
    simp [procElem, hset]
  rw [hproc] at hmem
  refine ⟨hmem, ?_⟩
  intro f vs hget
  simp only [UnmarshallCustom, Bool.not_true, Bool.false_eq_true, if_false] at hok
  have hchar := (decodeLoop_ok_char _ es 0 c c' hok j).1 f vs hget
  refine ⟨_, hchar, ?_⟩
  refine List.mem_append_right _ ?_
  exact List.mem_map_of_mem some hmem

/-! ## Concrete decode scenarios -/

/-- A variant instance tagged `S` with no capabilities. -/
def aS1 : Elem := ⟨1, 0, false, .disabled, .disabled, "S"⟩

/-- A second variant instance tagged `S`. -/
def aS2 : Elem := ⟨2, 0, false, .disabled, .disabled, "S"⟩

/-- A variant instance tagged `L`. -/
def bL1 : Elem := ⟨3, 0, false, .disabled, .disabled, "L"⟩

/-- A second variant instance tagged `L`. -/
def bL2 : Elem := ⟨4, 0, false, .disabled, .disabled, "L"⟩

/-- A container with a single-value slot `S` and a slice slot `L`. -/
def cSL : Container := [(⟨"S", none, false⟩, .one none), (⟨"L", none, false⟩, .many [])]

/-- A wire array with two elements for each of the two slots. -/
def esSL : List WireElem :=
  [⟨"S", some aS1⟩, ⟨"L", some bL1⟩, ⟨"S", some aS2⟩, ⟨"L", some bL2⟩]

/-- The container produced by decoding `esSL` into `cSL`. -/
def cSLres : Container :=
  [(⟨"S", none, false⟩, .one (some aS2)), (⟨"L", none, false⟩, .many [some bL1, some bL2])]

theorem unmarshall_assign_append_overwrite_witness :
    UnmarshallCustom true true (.arr esSL) cSL = .ok cSLres ∧
    cSLres.get? 0 = some (⟨"S", none, false⟩, .one (some aS2)) ∧
    cSLres.get? 1 = some (⟨"L", none, false⟩, .many [some bL1, some bL2]) := by
  have hok : UnmarshallCustom true true (.arr esSL) cSL = .ok cSLres := by rfl
  refine ⟨hok, ?_, ?_⟩
  · have h := (unmarshall_assign_append_overwrite cSL cSLres esSL 0 hok).2
      ⟨"S", none, false⟩ none (by rfl)
    exact h.trans (by rfl)
  · have h := (unmarshall_assign_append_overwrite cSL cSLres esSL 1 hok).1
      ⟨"L", none, false⟩ [] (by rfl)
    exact h.trans (by rfl)

/-- A settable variant instance tagged `S`. -/
def vSet : Elem := ⟨7, 0, false, .disabled, .value, "S"⟩

/-- A container with a single slice slot tagged `S`. -/
def cSet : Container := [(⟨"S", none, false⟩, .many [])]

/-- Wire input whose first element is skipped (empty tag) and whose
second element matches the slot: the match sits at original position 1. -/
def esSet : List WireElem := [⟨"", none⟩, ⟨"S", some vSet⟩]

/-- The decode result for `esSet`: the instance is stored with its
position-hint field set to 1, the skipped element still counted. -/
def cSetres : Container := [(⟨"S", none, false⟩, .many [some { vSet with idx := 1 }])]

theorem unmarshall_setIndex_original_position_witness :
    UnmarshallCustom true true (.arr esSet) cSet = .ok cSetres ∧
    { vSet with idx := (1 : Int) } ∈
      slotMatches (makeTargetFieldLookup (cSet.map Prod.fst)) 0 esSet ∧
    (∃ vs', cSetres.get? 0 = some (⟨"S", none, false⟩, .many vs') ∧
      some { vSet with idx := (1 : Int) } ∈ vs') := by
  have hok : UnmarshallCustom true true (.arr esSet) cSet = .ok cSetres := by rfl
  have h := unmarshall_setIndex_original_position cSet cSetres esSet 1 0
    ⟨"S", some vSet⟩ vSet hok (by rfl) (by decide) (by rfl) (by rfl) (by rfl)
  exact ⟨hok, h.1, h.2 ⟨"S", none, false⟩ [] (by rfl)⟩

/-! ## Capability queries during Flatten (claim C2) -/

/-- A by-value slice element whose type implements `GetIndex` with a
pointer receiver, reporting index 0. -/
def ePR : Elem := ⟨1, 0, false, .ptr, .disabled, "B"⟩

/-- A single-slot element with a value-receiver `GetIndex` reporting
index 5. -/
def eVR : Elem := ⟨2, 5, false, .value, .disabled, "A"⟩

/-- Container with the value-receiver single slot declared first and a
by-value slice holding the pointer-receiver element second. -/
def CexPR : Container :=
  [(⟨"A", none, false⟩, .one (some eVR)), (⟨"B", none, false⟩, .many [some ePR])]

/-- C2 counterexample: a by-value element inside a slice slot whose
type implements `GetIndex` with a pointer receiver is **not** wrapped:
its sort key is `math.MaxInt`, not its reported index 0, so it sorts
after the index-5 element instead of before it. -/
theorem flatten_slice_value_ptrReceiver_cex :
    ePR.getRecv = Recv.ptr ∧
    (indexedObjectForValue false ePR).1.Index = maxInt ∧
    (indexedObjectForValue false ePR).1.Index ≠ ePR.idx ∧
    Flatten CexPR = [eVR, ePR] := by
  refine ⟨rfl, rfl, by decide, by decide⟩

/-- C2 (amended): the uniform pointer wrap applies to single-value
slots only — there a pointer-receiver `GetIndex` is found and its
reported index becomes the sort key; slice elements are queried exactly
as held, so a by-pointer slice element's pointer-receiver `GetIndex` is
also used, but a by-value slice element with only a pointer-receiver
implementation sorts as capability-less (key `math.MaxInt`). -/
theorem flatten_capability_query_by_held_form (f : Field) (e : Elem)
    (hg : e.getRecv = Recv.ptr) :
    (heldIsZero f.byPtr (some e) = false →
      collectField f (.one (some e)) = [(⟨e.idx, e⟩, true)]) ∧
    (f.byPtr = true →
      collectField f (.many [some e]) = [(⟨e.idx, e⟩, true)]) ∧
    (f.byPtr = false →
      collectField f (.many [some e]) =
        if e.isZero then [] else [(⟨maxInt, e⟩, false)]) := by
  refine ⟨?_, ?_, ?_⟩
  · intro hz
    simp [collectField, hz, indexedObjectForValue, hg, Recv.inMethodSet]
  · intro hb
    simp [collectField, heldIsZero, hb, indexedObjectForValue, hg, Recv.inMethodSet]
  · intro hb
    by_cases hzz : e.isZero = true
    · simp [collectField, heldIsZero, hb, hzz]
    · simp only [Bool.not_eq_true] at hzz
      simp [collectField, heldIsZero, hb, hzz, indexedObjectForValue, hg, Recv.inMethodSet]

theorem flatten_capability_query_by_held_form_witness :
    (collectField ⟨"A", none, false⟩ (.one (some ePR)) = [(⟨0, ePR⟩, true)]) ∧
    (collectField ⟨"A", none, true⟩ (.many [some ePR]) = [(⟨0, ePR⟩, true)]) ∧
    (collectField ⟨"A", none, false⟩ (.many [some ePR]) = [(⟨maxInt, ePR⟩, false)]) := by
  have h₁ := flatten_capability_query_by_held_form ⟨"A", none, false⟩ ePR rfl
  have h₂ := flatten_capability_query_by_held_form ⟨"A", none, true⟩ ePR rfl
  refine ⟨h₁.1 (by decide), h₂.2.1 rfl, ?_⟩
  have := h₁.2.2 rfl
  simpa using this

/-! ## Sort-order characterization (claim C3) -/

theorem mem_collectField_shape (f : Field) (c : SlotContent) (p : IndexedObject × Bool)
    (h : p ∈ collectField f c) : ∃ b e, p = indexedObjectForValue b e := by
  cases c with
  | one v =>
    cases v with
    | none => simp [collectField, heldIsZero] at h
    | some e =>
      by_cases hz : heldIsZero f.byPtr (some e) = true
      · simp [collectField, hz] at h
      · simp only [Bool.not_eq_true] at hz
        simp [collectField, hz] at h
        exact ⟨true, e, h⟩
  | many vs =>
    simp only [collectField] at h
    rcases List.mem_filterMap.mp h with ⟨o, ho, heq⟩
    cases o with
    | none => simp at heq
    | some e =>
      by_cases hz : heldIsZero f.byPtr (some e) = true
      · simp [hz] at heq
      · simp only [Bool.not_eq_true] at hz
        simp [hz] at heq
        exact ⟨f.byPtr, e, heq.symm⟩

/-- Every non-sortable collected item carries the `math.MaxInt` key. -/
theorem collect_flag_false_key (C : Container) (p : IndexedObject × Bool)
    (hp : p ∈ collectAll C) (hf : p.2 = false) : p.1.Index = maxInt := by
  rcases List.mem_flatMap.mp hp with ⟨fc, _, hmem⟩
  rcases mem_collectField_shape fc.1 fc.2 p hmem with ⟨b, e, rfl⟩
  unfold indexedObjectForValue at hf ⊢
  by_cases hm : e.getRecv.inMethodSet b = true
  · rw [if_pos hm] at hf
    simp at hf
  · rw [if_neg hm]

/-- C3 counterexample: an element whose `GetIndex` reports
`math.MaxInt` ties with capability-less elements, so a capability-less
element declared earlier stays **before** this index-bearing element —
the claim's "capability-less elements appear after all index-bearing
ones" fails. -/
theorem flatten_capabilityless_not_always_last_cex :
    (indexedObjectForValue true (⟨1, 0, false, .disabled, .disabled, "A"⟩ : Elem)).2 = false ∧
    (indexedObjectForValue true (⟨2, maxInt, false, .value, .disabled, "B"⟩ : Elem)).2 = true ∧
    Flatten [(⟨"A", none, false⟩, .one (some ⟨1, 0, false, .disabled, .disabled, "A"⟩)),
             (⟨"B", none, false⟩, .one (some ⟨2, maxInt, false, .value, .disabled, "B"⟩))] =
      [⟨1, 0, false, .disabled, .disabled, "A"⟩, ⟨2, maxInt, false, .value, .disabled, "B"⟩] := by
  refine ⟨rfl, rfl, by decide⟩

/-- C3 (amended): `Flatten` equals a stable ascending sort of the
collected stream by the per-element key (reported index if the
capability is exposed, `math.MaxInt` otherwise): the output is the
sorted stream's values even when the sort is skipped, keys ascend,
elements sharing a key keep encounter order (key-filter preservation),
and capability-less elements appear after all index-bearing ones whose
reported index is below `math.MaxInt`. -/
theorem flatten_stable_sort_by_index (C : Container) :
    (Flatten C =
      (sSort (fun p => p.1.Index) (collectAll C)).map fun p => p.1.Value) ∧
    ((sSort (fun p => p.1.Index) (collectAll C)).Pairwise fun a b => a.1.Index ≤ b.1.Index) ∧
    (∀ k : Int, (sSort (fun p => p.1.Index) (collectAll C)).filter
        (fun p => decide (p.1.Index = k)) =
      (collectAll C).filter fun p => decide (p.1.Index = k)) ∧
    ((∀ p ∈ collectAll C, p.2 = true → p.1.Index < maxInt) →
      (sSort (fun p => p.1.Index) (collectAll C)).Pairwise fun a b =>
        b.2 = true → a.2 = true) := by
  refine ⟨?_, sSort_sorted _ _, fun k => sSort_filter_key _ _ k, ?_⟩
  · show (List.map (fun o => o.Value)
        (if ((collectAll C).any fun p => p.2) = true
         then sSort (fun o => o.Index) ((collectAll C).map fun p => p.1)
         else (collectAll C).map fun p => p.1)) = _
    by_cases hs : (collectAll C).any (fun p => p.2) = true
    · rw [if_pos hs, sSort_map (fun o : IndexedObject => o.Index)
        (fun p : IndexedObject × Bool => p.1) (collectAll C), List.map_map]
      rfl
    · rw [if_neg hs, List.map_map]
      have hall : ∀ p ∈ collectAll C, p.2 = false := by
        intro p hp
        by_contra hne
        exact hs (List.any_eq_true.mpr ⟨p, hp, by
          cases h2 : p.2 with
          | false => exact absurd h2 hne
          | true => rfl⟩)
      rw [sSort_of_const (fun p => p.1.Index) (collectAll C) maxInt
        (fun p hp => collect_flag_false_key C p hp (hall p hp))]
      rfl
  · intro hlt
    have hsorted := sSort_sorted (fun p : IndexedObject × Bool => p.1.Index) (collectAll C)
    have hperm := sSort_perm (fun p : IndexedObject × Bool => p.1.Index) (collectAll C)
    refine hsorted.imp_of_mem ?_
    intro a b ha hb hle h2
    have hamem : a ∈ collectAll C := hperm.mem_iff.mp ha
    have hbmem : b ∈ collectAll C := hperm.mem_iff.mp hb
    cases h2a : a.2 with
    | true => rfl
    | false =>
      have hka : a.1.Index = maxInt := collect_flag_false_key C a hamem h2a
      have hkb : b.1.Index < maxInt := hlt b hbmem h2
      rw [hka] at hle
      exact absurd (lt_of_le_of_lt hle hkb) (lt_irrefl _)

/-- A concrete container exercising the amended C3: a slice of two
capability-less elements declared first, then an index-1 element. -/
def Cw3 : Container :=
  [(⟨"A", none, false⟩, .many [some ⟨1, 0, false, .disabled, .disabled, "A"⟩,
                               some ⟨2, 0, false, .disabled, .disabled, "A"⟩]),
   (⟨"B", none, false⟩, .one (some ⟨3, 1, false, .value, .disabled, "B"⟩))]

theorem flatten_stable_sort_by_index_witness :
    (Flatten Cw3 =
      (sSort (fun p => p.1.Index) (collectAll Cw3)).map fun p => p.1.Value) ∧
    Flatten Cw3 = [⟨3, 1, false, .value, .disabled, "B"⟩,
                   ⟨1, 0, false, .disabled, .disabled, "A"⟩,
                   ⟨2, 0, false, .disabled, .disabled, "A"⟩] ∧
    ((sSort (fun p => p.1.Index) (collectAll Cw3)).Pairwise fun a b =>
      b.2 = true → a.2 = true) := by
  have h := flatten_stable_sort_by_index Cw3
  exact ⟨h.1, by decide, h.2.2.2 (by decide)⟩

/-! ## Round-trip helper lemmas (claim C1) -/

/-- The Boolean form of "this tag routes to field `j`". -/
def tagMatches (r : String → Option Nat) (j : Nat) (t : String) : Bool :=
  decide (t ≠ "" ∧ r t = some j)

theorem sansIdx_procElem (i : Nat) (v : Elem) :
    sansIdx (procElem i v) = sansIdx v := by
  unfold procElem
  split <;> rfl

/-- Decoding a re-parsed marshal output: modulo position-hint fields,
field `j` receives exactly the flattened elements whose tag routes to
`j`, in flattened order. -/
theorem slotMatchesFrom_wire (r : String → Option Nat) (j : Nat) (fl : List Elem) :
    ∀ n, (slotMatchesFrom r j n (fl.map wireOf)).map sansIdx =
      (fl.filter fun e => tagMatches r j e.tag).map sansIdx := by
  induction fl with
  | nil => intro n; rfl
  | cons e fl' ih =>
    intro n
    by_cases hc : e.tag ≠ "" ∧ r e.tag = some j
    · have hb : tagMatches r j e.tag = true := decide_eq_true hc
      simp only [List.map_cons, slotMatchesFrom, wireOf, if_pos hc, List.filter_cons,
        hb, if_true, List.map_cons, sansIdx_procElem]
      rw [ih (n + 1)]
    · have hb : tagMatches r j e.tag = false := decide_eq_false hc
      simp only [List.map_cons, slotMatchesFrom, wireOf, if_neg hc, List.filter_cons, hb,
        Bool.false_eq_true, if_false]
      rw [ih (n + 1)]

theorem freshOf_map_fst (C : Container) :
    (freshOf C).map Prod.fst = C.map Prod.fst := by
  induction C with
  | nil => rfl
  | cons fc rest ih => simpa [freshOf] using ih

theorem freshOf_get? (C : Container) (j : Nat) :
    (freshOf C).get? j = (C.get? j).map fun fc => (fc.1, emptyContent fc.2) := by
  unfold freshOf
  exact List.get?_map _ C j

theorem mem_collectField_value_held (f : Field) (c : SlotContent)
    (p : IndexedObject × Bool) (h : p ∈ collectField f c) :
    some p.1.Value ∈ heldList c := by
  cases c with
  | one v =>
    cases v with
    | none => simp [collectField, heldIsZero] at h
    | some e =>
      by_cases hz : heldIsZero f.byPtr (some e) = true
      · simp [collectField, hz] at h
      · simp only [Bool.not_eq_true] at hz
        simp [collectField, hz] at h
        subst h
        simp [heldList, indexedObjectForValue_value]
  | many vs =>
    simp only [collectField] at h
    rcases List.mem_filterMap.mp h with ⟨o, ho, heq⟩
    cases o with
    | none => simp at heq
    | some e =>
      by_cases hz : heldIsZero f.byPtr (some e) = true
      · simp [hz] at heq
      · simp only [Bool.not_eq_true] at hz
        simp [hz] at heq
        subst heq
        simpa [heldList, indexedObjectForValue_value] using ho

theorem collectField_many_values_noZeros (f : Field) (vs : List (Option Elem))
    (h : ∀ o ∈ vs, heldIsZero f.byPtr o = false) :
    (collectField f (.many vs)).map (fun p => p.1.Value) = vs.filterMap id ∧
    vs = (vs.filterMap id).map some := by
  rw [collectField_many_values]
  induction vs with
  | nil => exact ⟨rfl, rfl⟩
  | cons o os iho =>
    have ho : heldIsZero f.byPtr o = false := h o (List.mem_cons_self o os)
    have hos : ∀ o' ∈ os, heldIsZero f.byPtr o' = false :=
      fun o' ho' => h o' (List.mem_cons_of_mem o ho')
    rcases iho hos with ⟨ih1, ih2⟩
    cases o with
    | none => simp [heldIsZero] at ho
    | some e =>
      constructor
      · simp only [List.filterMap_cons, ho, Bool.false_eq_true, if_false, id]
        rw [ih1]
      · simp only [List.filterMap_cons, id, List.map_cons]
        exact congrArg (some e :: ·) ih2

theorem filter_flatMap (l : List α) (g : α → List β) (p : β → Bool) :
    (l.flatMap g).filter p = l.flatMap fun a => (g a).filter p := by
  induction l with
  | nil => rfl
  | cons a l' ih => simp [List.flatMap_cons, List.filter_append, ih]

/-- Splitting a list at a known index. -/
theorem eq_take_cons_drop (l : List α) (n : Nat) (a : α) (h : l.get? n = some a) :
    l = l.take n ++ a :: l.drop (n + 1) := by
  have hlt : n < l.length := (List.get?_eq_some.mp h).1
  have hd := List.drop_eq_getElem_cons hlt
  have ha : l[n] = a := by
    rw [List.get?_eq_getElem?, List.getElem?_eq_getElem hlt] at h
    exact Option.some_injective _ h
  conv_lhs => rw [← List.take_append_drop n l]
  rw [hd, ha]

theorem mem_take_get? (l : List α) (n : Nat) (a : α) (h : a ∈ l.take n) :
    ∃ k, k < n ∧ l.get? k = some a := by
  rcases List.mem_iff_get?.mp h with ⟨k, hk⟩
  have hkn : k < n := by
    have := (List.get?_eq_some.mp hk).1
    simp [List.length_take] at this
    omega
  exact ⟨k, hkn, by rw [← List.get?_take hkn]; exact hk⟩

theorem mem_drop_get? (l : List α) (n : Nat) (a : α) (h : a ∈ l.drop n) :
    ∃ k, n ≤ k ∧ l.get? k = some a := by
  rcases List.mem_iff_get?.mp h with ⟨k, hk⟩
  refine ⟨n + k, by omega, ?_⟩
  rw [← List.get?_drop l n k]
  exact hk

/-- Registry self-routing: in a container with pairwise distinct tags,
the registry maps each field's tag back to that field's index. -/
theorem registry_self (C : Container) (k : Nat) (fk : Field) (ck : SlotContent)
    (hk : C.get? k = some (fk, ck)) (hnd : (C.map fun fc => fc.1.tag).Nodup) :
    makeTargetFieldLookup (C.map Prod.fst) fk.tag = some k := by
  have hfs : (C.map Prod.fst).get? k = some fk := by
    rw [List.get?_map, hk]
    rfl
  have hnd' : ((C.map Prod.fst).map Field.tag).Nodup := by
    rw [List.map_map]
    exact hnd
  exact makeTargetFieldLookup_of_nodup (C.map Prod.fst) k fk hfs hnd'

/-- Every value the flattening loop collects from a slot carries that
slot's tag, so the registry routes it back to the slot's index; values
of other slots never match. -/
theorem cv_filter_eq (C : Container) (j : Nat) (f : Field) (cont : SlotContent)
    (hj : C.get? j = some (f, cont))
    (hnd : (C.map fun fc => fc.1.tag).Nodup)
    (hne : ∀ fc ∈ C, fc.1.tag ≠ "")
    (htags : ∀ fc ∈ C, ∀ e : Elem, some e ∈ heldList fc.2 → e.tag = fc.1.tag) :
    ((collectAll C).map (fun p => p.1.Value)).filter
        (fun e => tagMatches (makeTargetFieldLookup (C.map Prod.fst)) j e.tag) =
      (collectField f cont).map (fun p => p.1.Value) := by
  have hvaltag : ∀ k fk ck, C.get? k = some (fk, ck) →
      ∀ e ∈ (collectField fk ck).map (fun p => p.1.Value),
      tagMatches (makeTargetFieldLookup (C.map Prod.fst)) j e.tag =
        decide (k = j) := by
    intro k fk ck hk e he
    rcases List.mem_map.mp he with ⟨p, hp, rfl⟩
    have hmemC : (fk, ck) ∈ C := List.get?_mem hk
    have hheld : some p.1.Value ∈ heldList ck := mem_collectField_value_held fk ck p hp
    have htag : p.1.Value.tag = fk.tag := htags (fk, ck) hmemC p.1.Value hheld
    have hner : fk.tag ≠ "" := hne (fk, ck) hmemC
    have hreg := registry_self C k fk ck hk hnd
    unfold tagMatches
    rw [htag, hreg]
    by_cases hkj : k = j
    · subst hkj
      simp [hner]
    · simp [hkj]
  set r := makeTargetFieldLookup (C.map Prod.fst) with hrdef
  have hsplit := eq_take_cons_drop C j (f, cont) hj
  conv_lhs => rw [hsplit]
  unfold collectAll
  rw [List.map_flatMap, filter_flatMap, List.flatMap_append, List.flatMap_cons]
  have hleft : (C.take j).flatMap (fun fc =>
      ((collectField fc.1 fc.2).map (fun p => p.1.Value)).filter
        (fun e => tagMatches r j e.tag)) = [] := by
    rw [List.flatMap_eq_nil_iff]
    intro fc hfc
    rcases mem_take_get? C j fc hfc with ⟨k, hkj, hk⟩
    rw [List.filter_eq_nil_iff]
    intro e he
    rw [hvaltag k fc.1 fc.2 (by rw [hk]) e he]
    simp [Nat.ne_of_lt hkj]
  have hright : (C.drop (j + 1)).flatMap (fun fc =>
      ((collectField fc.1 fc.2).map (fun p => p.1.Value)).filter
        (fun e => tagMatches r j e.tag)) = [] := by
    rw [List.flatMap_eq_nil_iff]
    intro fc hfc
    rcases mem_drop_get? C (j + 1) fc hfc with ⟨k, hkj, hk⟩
    rw [List.filter_eq_nil_iff]
    intro e he
    rw [hvaltag k fc.1 fc.2 (by rw [hk]) e he]
    have : k ≠ j := by omega
    simp [this]
  have hmid : ((collectField f cont).map (fun p => p.1.Value)).filter
      (fun e => tagMatches r j e.tag) =
      (collectField f cont).map (fun p => p.1.Value) := by
    rw [List.filter_eq_self]
    intro e he
    rw [hvaltag j f cont hj e he]
    simp
  rw [hleft, hright, hmid]
  simp

/-- Slot-content comparison modulo position-hint fields: single slots
must hold the same value (up to the hint field), slice slots the same
values as a multiset (up to hint fields). -/
def ContentMatch : SlotContent → SlotContent → Prop
  | .one v, .one v' => v'.map sansIdx = v.map sansIdx
  | .many vs, .many vs' =>
      (vs'.map (Option.map sansIdx)).Perm (vs.map (Option.map sansIdx))
  | _, _ => False

/-- C1 (amended): marshalling a container and decoding the output into
a fresh container of the same type succeeds and restores every slot's
values modulo position-hint fields **up to reordering of slice slots**:
a single-value slot holds the same value, a slice slot the same
multiset of values (the decode appends them in the flatten-sorted
order, which may permute the slot's internal order).  Provisos: the
container's tags are pairwise distinct and non-empty, every stored
value's own JSON carries its slot's discriminator, and no slot holds a
zero-valued element. -/
theorem marshal_unmarshall_roundTrip (C : Container)
    (hnd : (C.map fun fc => fc.1.tag).Nodup)
    (hne : ∀ fc ∈ C, fc.1.tag ≠ "")
    (htags : ∀ fc ∈ C, ∀ e : Elem, some e ∈ heldList fc.2 → e.tag = fc.1.tag)
    (hnz : ∀ fc ∈ C, NoZeros fc.1.byPtr fc.2) :
    ∃ C', UnmarshallCustom true true (.arr (MarshalWire C)) (freshOf C) = .ok C' ∧
      ∀ j f cont, C.get? j = some (f, cont) →
        ∃ cont', C'.get? j = some (f, cont') ∧ ContentMatch cont cont' := by
  have hpay : ∀ e ∈ MarshalWire C, e.payload ≠ none := by
    intro e he
    rcases List.mem_map.mp he with ⟨x, _, rfl⟩
    simp [wireOf]
  obtain ⟨C', hC'⟩ := decodeLoop_ok_of_payloads
    (makeTargetFieldLookup ((freshOf C).map Prod.fst)) (MarshalWire C) 0 (freshOf C) hpay
  have hok : UnmarshallCustom true true (.arr (MarshalWire C)) (freshOf C) = .ok C' := by
    simp only [UnmarshallCustom, Bool.not_true, Bool.false_eq_true, if_false]
    exact hC'
  refine ⟨C', hok, ?_⟩
  intro j f cont hj
  have hfresh : (freshOf C).get? j = some (f, emptyContent cont) := by
    rw [freshOf_get?, hj]
    rfl
  have hr : makeTargetFieldLookup ((freshOf C).map Prod.fst) =
      makeTargetFieldLookup (C.map Prod.fst) := by
    rw [freshOf_map_fst]
  have hchar := decodeLoop_ok_char (makeTargetFieldLookup ((freshOf C).map Prod.fst))
    (MarshalWire C) 0 (freshOf C) C' hC' j
  have hwire : (slotMatchesFrom (makeTargetFieldLookup ((freshOf C).map Prod.fst)) j 0
      (MarshalWire C)).map sansIdx =
      ((Flatten C).filter fun e =>
        tagMatches (makeTargetFieldLookup (C.map Prod.fst)) j e.tag).map sansIdx := by
    rw [hr]
    exact slotMatchesFrom_wire (makeTargetFieldLookup (C.map Prod.fst)) j (Flatten C) 0
  have hfil : (((Flatten C).filter fun e =>
      tagMatches (makeTargetFieldLookup (C.map Prod.fst)) j e.tag)).Perm
      ((collectField f cont).map fun p => p.1.Value) := by
    have hperm := (Flatten_perm_collect C).filter
      (fun e => tagMatches (makeTargetFieldLookup (C.map Prod.fst)) j e.tag)
    rw [cv_filter_eq C j f cont hj hnd hne htags] at hperm
    exact hperm
  have hMS : ((slotMatchesFrom (makeTargetFieldLookup ((freshOf C).map Prod.fst)) j 0
      (MarshalWire C)).map sansIdx).Perm
      (((collectField f cont).map fun p => p.1.Value).map sansIdx) := by
    rw [hwire]
    exact hfil.map sansIdx
  have hmemC : (f, cont) ∈ C := List.get?_mem hj
  cases cont with
  | many vs =>
    have hget := hchar.1 f [] (by simpa [emptyContent] using hfresh)
    refine ⟨_, hget, ?_⟩
    have hnzj : ∀ o ∈ vs, heldIsZero f.byPtr o = false := hnz (f, .many vs) hmemC
    obtain ⟨hv1, hv2⟩ := collectField_many_values_noZeros f vs hnzj
    show (((slotMatchesFrom _ j 0 (MarshalWire C)).map some).map (Option.map sansIdx)).Perm
      (vs.map (Option.map sansIdx))
    rw [hv1] at hMS
    conv_rhs => rw [hv2]
    rw [List.map_map, List.map_map]
    have : ((slotMatchesFrom (makeTargetFieldLookup ((freshOf C).map Prod.fst)) j 0
        (MarshalWire C)).map sansIdx).map some |>.Perm
        (((vs.filterMap id).map sansIdx).map some) := (hMS.map some)
    rw [List.map_map, List.map_map] at this
    exact this
  | one v =>
    have hget := hchar.2 f none (by simpa [emptyContent] using hfresh)
    refine ⟨_, hget, ?_⟩
    cases v with
    | none =>
      have hcv : (collectField f (.one none)).map (fun p => p.1.Value) = [] := by
        simp [collectField, heldIsZero]
      rw [hcv] at hMS
      have hnil : (slotMatchesFrom (makeTargetFieldLookup ((freshOf C).map Prod.fst)) j 0
          (MarshalWire C)).map sansIdx = [] := hMS.eq_nil
      have hmnil : slotMatchesFrom (makeTargetFieldLookup ((freshOf C).map Prod.fst)) j 0
          (MarshalWire C) = [] := by
        rcases hm : slotMatchesFrom (makeTargetFieldLookup ((freshOf C).map Prod.fst)) j 0
          (MarshalWire C) with _ | ⟨w, ws⟩
        · rfl
        · rw [hm] at hnil
          simp at hnil
      rw [hmnil]
      show (none : Option Elem).map sansIdx = (Option.map sansIdx none)
      rfl
    | some e =>
      have hnzj : heldIsZero f.byPtr (some e) = false := hnz (f, .one (some e)) hmemC
      have hcv : (collectField f (.one (some e))).map (fun p => p.1.Value) = [e] := by
        simp [collectField, hnzj, indexedObjectForValue_value]
      rw [hcv] at hMS
      have hone : (slotMatchesFrom (makeTargetFieldLookup ((freshOf C).map Prod.fst)) j 0
          (MarshalWire C)).map sansIdx = [sansIdx e] := by
        have h := hMS
        simp only [List.map_cons, List.map_nil] at h
        exact List.perm_singleton.mp h
      rcases hm : slotMatchesFrom (makeTargetFieldLookup ((freshOf C).map Prod.fst)) j 0
        (MarshalWire C) with _ | ⟨w, ws⟩
      · rw [hm] at hone
        simp at hone
      · rw [hm] at hone
        cases ws with
        | nil =>
          simp only [List.map_cons, List.map_nil] at hone
          have hw : sansIdx w = sansIdx e := by
            injection hone
          show (Option.map sansIdx (some w)) = (Option.map sansIdx (some e))
          simp [hw]
        | cons w' ws' =>
          simp at hone

/-! ## Round-trip counterexample (C1 as stated) -/

/-- First slice element: carries tag `A`, reports index 5. -/
def rtE1 : Elem := ⟨1, 5, false, .value, .disabled, "A"⟩

/-- Second slice element: carries tag `A`, reports index 2. -/
def rtE2 : Elem := ⟨2, 2, false, .value, .disabled, "A"⟩

/-- A container whose single slice slot holds two index-bearing
elements in descending index order. -/
def CexRT : Container := [(⟨"A", none, false⟩, .many [some rtE1, some rtE2])]

/-- C1 counterexample: the slice slot's internal order is **not**
restored by the round trip, even modulo position-hint fields, although
the container satisfies the claim's provisos (elements carry their
slot's discriminator and no element is zero-valued): marshalling sorts
the two elements by their position hints, and the decode appends them
in that sorted order, yielding `[rtE2, rtE1]` instead of
`[rtE1, rtE2]`. -/
theorem marshal_unmarshall_not_slotwise_equal_cex :
    UnmarshallCustom true true (.arr (MarshalWire CexRT)) (freshOf CexRT) =
      .ok [(⟨"A", none, false⟩, .many [some rtE2, some rtE1])] ∧
    ¬ ContentMatch (SlotContent.one (some rtE1)) (SlotContent.one (some rtE2)) ∧
    [some rtE2, some rtE1].map (Option.map sansIdx) ≠
      [some rtE1, some rtE2].map (Option.map sansIdx) ∧
    (∀ fc ∈ CexRT, ∀ e : Elem, some e ∈ heldList fc.2 → e.tag = fc.1.tag) ∧
    (∀ fc ∈ CexRT, NoZeros fc.1.byPtr fc.2) := by
  refine ⟨rfl, ?_, by decide, ?_, ?_⟩
  · intro h
    have : (some rtE2).map sansIdx = (some rtE1).map sansIdx := h
    simp [sansIdx, rtE1, rtE2] at this
  · intro fc hfc e he
    rcases List.mem_singleton.mp hfc with rfl
    simp [heldList, CexRT] at he
    rcases he with rfl | rfl <;> rfl
  · intro fc hfc
    rcases List.mem_singleton.mp hfc with rfl
    intro o ho
    simp [CexRT] at ho
    rcases ho with rfl | rfl <;> rfl

/-! ## Round-trip witness (amended C1) -/

/-- Witness container: a single-value slot `S` and a slice slot `L`
with two elements, one index-bearing. -/
def CwRT : Container :=
  [(⟨"S", none, false⟩, .one (some ⟨1, 0, false, .disabled, .value, "S"⟩)),
   (⟨"L", none, false⟩, .many [some ⟨2, 7, false, .value, .value, "L"⟩,
                               some ⟨3, 0, false, .disabled, .disabled, "L"⟩])]

theorem marshal_unmarshall_roundTrip_witness :
    ∃ C', UnmarshallCustom true true (.arr (MarshalWire CwRT)) (freshOf CwRT) = .ok C' ∧
      ∀ j f cont, CwRT.get? j = some (f, cont) →
        ∃ cont', C'.get? j = some (f, cont') ∧ ContentMatch cont cont' := by
  apply marshal_unmarshall_roundTrip CwRT
  · decide
  · decide
  · intro fc hfc e he
    rcases List.mem_cons.mp hfc with rfl | h
    · simp [heldList] at he
      subst he
      rfl
    · rcases List.mem_singleton.mp h with rfl
      simp [heldList] at he
      rcases he with rfl | rfl <;> rfl
  · intro fc hfc
    rcases List.mem_cons.mp hfc with rfl | h
    · exact rfl
    · rcases List.mem_singleton.mp h with rfl
      intro o ho
      simp at ho
      rcases ho with rfl | rfl <;> rfl

end Poly
